import Mathlib

/-!
Verification of the fixed-width-integer runtime library (`gravitum`).

The two source files under verification are `gravitum/utils.py` (type
resolution) and `gravitum/decompiler_builtins/ida.py` (partitioning,
rotation, flag emulation, widening pair, byte transform).  The value type
itself (`gravitum/types.py`, class `Integer` and its eight subclasses) is
not part of the provided sources, so it is modelled from the specification:
a value is a raw bit pattern bound to a declared byte size and signedness,
every operation re-wraps its result modulo `2^width`, signed values are
read back by two's complement, mixed-width two-operand arithmetic is
performed at the common width (the larger of the two operand widths) on the
Python-integer images of the operands.
-/

namespace Gravitum

/-- Byte order setting.  The source keeps it in the process-wide mutable
`BYTE_ORDER`; it is modelled as an explicit parameter of every function
that reads it, so that each call observes the order it is given. -/
inductive ByteOrder where
  | little
  | big
deriving DecidableEq

/-- Modelled from the spec: a `TypeRegistry` descriptor for a fixed-width
integer kind, a declared byte size together with a signedness flag
(`types.py` is not part of the provided sources). -/
structure IntKind where
  size : Nat
  signed : Bool
deriving DecidableEq

/-- Declared bit width of a kind. -/
def IntKind.bits (k : IntKind) : Nat := k.size * 8

def Int8K : IntKind := ⟨1, true⟩
def Int16K : IntKind := ⟨2, true⟩
def Int32K : IntKind := ⟨4, true⟩
def Int64K : IntKind := ⟨8, true⟩
def UInt8K : IntKind := ⟨1, false⟩
def UInt16K : IntKind := ⟨2, false⟩
def UInt32K : IntKind := ⟨4, false⟩
def UInt64K : IntKind := ⟨8, false⟩

/-- The eight fixed kinds, in the order `utils.get_type` searches them. -/
def intTypes : List IntKind :=
  [Int8K, Int16K, Int32K, Int64K, UInt8K, UInt16K, UInt32K, UInt64K]

/-- Modelled from the spec: a fixed-width integer value, a raw bit pattern
bound to its kind.  The stored magnitude is kept congruent modulo
`2^width` to the mathematically exact result of the last operation. -/
structure FwInt where
  kind : IntKind
  val : Nat
deriving DecidableEq

/-- Declared bit width of a value. -/
def FwInt.bits (x : FwInt) : Nat := x.kind.bits

/-- Well-formedness: the stored pattern fits the declared width.  Every
operation below produces a well-formed value. -/
def FwInt.Wf (x : FwInt) : Prop := x.val < 2 ^ x.bits

instance (x : FwInt) : Decidable x.Wf :=
  inferInstanceAs (Decidable (x.val < 2 ^ x.bits))

/-- Modelled from the spec: construction from a Python integer — the value
is wrapped modulo `2^width` and reinterpreted per two's complement. -/
def FwInt.ofIntK (k : IntKind) (i : Int) : FwInt :=
  ⟨k, (i % (2 ^ k.bits : Int)).toNat⟩

/-- Modelled from the spec: the Python-integer image `int(x)` of a value —
the two's-complement reading of the pattern when the kind is signed, the
pattern itself otherwise. -/
def FwInt.toInt (x : FwInt) : Int :=
  if x.kind.signed ∧ 2 ^ (x.bits - 1) ≤ x.val then (x.val : Int) - 2 ^ x.bits
  else (x.val : Int)

/-- Modelled from the spec: applying an integer-type constructor to an
existing value, `type(v)(x)` or `data_type(x)` in the source — convert to
the Python integer and re-wrap at the target kind. -/
def FwInt.cast (k : IntKind) (x : FwInt) : FwInt := FwInt.ofIntK k x.toInt

/-- Modelled from the spec: result kind of a mixed-width two-operand
operation — its width is the common width (the larger of the two operand
widths); the spec leaves the result signedness unspecified and no claim
below depends on it, so it is taken from the left operand. -/
def IntKind.common (k l : IntKind) : IntKind := ⟨max k.size l.size, k.signed⟩

/-- The pattern of a value sign-extended (or truncated) to `w` bits:
the Python integer image reduced modulo `2^w`. -/
def FwInt.uAt (x : FwInt) (w : Nat) : Nat := (x.toInt % (2 ^ w : Int)).toNat

/-- Modelled from the spec: addition, performed on the Python-integer
images and wrapped at the common width. -/
def FwInt.add (x y : FwInt) : FwInt :=
  FwInt.ofIntK (x.kind.common y.kind) (x.toInt + y.toInt)

/-- Modelled from the spec: subtraction, performed on the Python-integer
images and wrapped at the common width. -/
def FwInt.sub (x y : FwInt) : FwInt :=
  FwInt.ofIntK (x.kind.common y.kind) (x.toInt - y.toInt)

/-- Modelled from the spec: bitwise AND.  Python `&` on arbitrary integers
is two's-complement AND; at the common width it equals the AND of the two
sign-extended patterns. -/
def FwInt.and (x y : FwInt) : FwInt :=
  let k := x.kind.common y.kind
  ⟨k, x.uAt k.bits &&& y.uAt k.bits⟩

/-- Modelled from the spec: bitwise OR, as the OR of the sign-extended
patterns at the common width (two's-complement OR). -/
def FwInt.or (x y : FwInt) : FwInt :=
  let k := x.kind.common y.kind
  ⟨k, x.uAt k.bits ||| y.uAt k.bits⟩

/-- Modelled from the spec: left shift — the high bits that overflow the
declared width are discarded. -/
def FwInt.shl (x : FwInt) (n : Nat) : FwInt :=
  FwInt.ofIntK x.kind (x.toInt * 2 ^ n)

/-- Modelled from the spec: right shift — arithmetic (sign-replicating)
when the kind is signed, logical otherwise.  Python `>>` is floor division
by `2^n`, which for the positive divisor `2^n` is Euclidean division. -/
def FwInt.shr (x : FwInt) (n : Nat) : FwInt :=
  FwInt.ofIntK x.kind (x.toInt / (2 ^ n : Int))

/-- Modelled from the spec: bitwise complement, Python `~i = -i - 1`,
re-wrapped at the value's own kind. -/
def FwInt.not (x : FwInt) : FwInt := FwInt.ofIntK x.kind (-x.toInt - 1)

/-- The `(size, signed)` lookup path of `utils.get_type`: search the eight
fixed kinds for an exact match; `none` models `ValueError` (the spec's
`TypeResolutionError`). -/
def getTypeSized (size : Nat) (signed : Bool) : Option IntKind :=
  intTypes.find? (fun k => k.size == size && k.signed == signed)

/-- Zero-digit code points of the decimal-digit runs of Unicode (general
category Nd, Unicode 15.0/15.1 as shipped with CPython 3.12–3.13; each
run is ten consecutive code points holding the digits 0–9).  Python's
`\d` regex class and `int()` accept exactly these characters, not only
ASCII `0-9`; interpreters built against an older Unicode version merely
lack the most recently added scripts. -/
def ndZeroPoints : List Nat :=
  [0x30, 0x660, 0x6F0, 0x7C0, 0x966, 0x9E6, 0xA66, 0xAE6, 0xB66, 0xBE6,
   0xC66, 0xCE6, 0xD66, 0xDE6, 0xE50, 0xED0, 0xF20, 0x1040, 0x1090, 0x17E0,
   0x1810, 0x1946, 0x19D0, 0x1A80, 0x1A90, 0x1B50, 0x1BB0, 0x1C40, 0x1C50,
   0xA620, 0xA8D0, 0xA900, 0xA9D0, 0xA9F0, 0xAA50, 0xABF0, 0xFF10,
   0x104A0, 0x10D30, 0x11066, 0x110F0, 0x11136, 0x111D0, 0x112F0, 0x11450,
   0x114D0, 0x11650, 0x116C0, 0x11730, 0x118E0, 0x11950, 0x11C50, 0x11D50,
   0x11DA0, 0x11F50, 0x16A60, 0x16AC0, 0x16B50,
   0x1D7CE, 0x1D7D8, 0x1D7E2, 0x1D7EC, 0x1D7F6,
   0x1E140, 0x1E2F0, 0x1E4F0, 0x1E950, 0x1FBF0]

/-- The character class Python's `\d` matches: any Unicode decimal digit
(category Nd). -/
def isPyDigit (c : Char) : Bool :=
  ndZeroPoints.any (fun z => z ≤ c.toNat && c.toNat ≤ z + 9)

/-- Decimal value of a Unicode decimal digit: its offset within its Nd
run, the value `int()` assigns it.  The fallback 0 is never reached on
characters accepted by `isPyDigit`. -/
def pyDigitVal (c : Char) : Nat :=
  match ndZeroPoints.find? (fun z => z ≤ c.toNat && c.toNat ≤ z + 9) with
  | some z => c.toNat - z
  | none => 0

/-- Decimal value of a digit run, as Python `int` applied to the matched
group: each Unicode decimal digit contributes its digit value. -/
def parseDigits (ds : List Char) : Nat :=
  ds.foldl (fun acc c => acc * 10 + pyDigitVal c) 0

/-- The `type_name` path of `utils.get_type`: `re.match(r"(u*)int(\d+)", name)`
anchors at the start only, so the model takes the maximal run of leading
`'u'`s, then the literal `"int"`, then the maximal nonempty digit run, and
ignores everything after it; `signed = not bool(match.group(1))`; the bit
count must be a multiple of 8 and the byte size must resolve among the
eight kinds.  `none` models `ValueError`. -/
def getTypeNamed (name : String) : Option IntKind :=
  let cs := name.toList
  let us := cs.takeWhile (fun c => c = 'u')
  let rest := cs.dropWhile (fun c => c = 'u')
  if rest.take 3 = ['i', 'n', 't'] then
    let ds := (rest.drop 3).takeWhile isPyDigit
    if ds.isEmpty then none
    else
      let nbits := parseDigits ds
      if nbits % 8 = 0 then getTypeSized (nbits / 8) us.isEmpty
      else none
  else none

/-- Little-endian byte list of a pattern, `s` bytes long
(`Integer.to_bytes` with byteorder "little"). -/
def bytesLE : Nat → Nat → List Nat
  | 0, _ => []
  | s + 1, v => v % 256 :: bytesLE s (v / 256)

/-- Serialization `x.to_bytes(byteorder=bo)`: the value's raw bytes in the
requested order. -/
def FwInt.toBytes (x : FwInt) (bo : ByteOrder) : List Nat :=
  match bo with
  | .little => bytesLE x.kind.size x.val
  | .big => (bytesLE x.kind.size x.val).reverse

/-- Value of a little-endian byte list. -/
def natFromBytesLE (l : List Nat) : Nat :=
  l.foldr (fun b acc => b + 256 * acc) 0

/-- Deserialization `t.from_bytes(data, byteorder=bo)`: fails (the spec's
`SizeMismatch`) unless the buffer length equals the kind's byte size. -/
def fromBytes (t : IntKind) (data : List Nat) (bo : ByteOrder) : Option FwInt :=
  if data.length = t.size then
    some ⟨t, natFromBytesLE (match bo with | .little => data | .big => data.reverse)⟩
  else none

/-- Translation of `_partn`: serialize `x` in the active byte order, take
the byte slice `data[n*size : (n+1)*size]` (Python slicing clamps to the
buffer, so a short slice stays short), and deserialize it as `t`.  `none`
models the failing `from_bytes` call (the spec's `IndexOutOfRange`). -/
def partn (bo : ByteOrder) (x : FwInt) (n : Nat) (t : IntKind) : Option FwInt :=
  fromBytes t (((x.toBytes bo).drop (n * t.size)).take t.size) bo

/-- Translation of `last_ind`. -/
def last_ind (x : FwInt) (partType : IntKind) : Nat :=
  x.kind.size / partType.size - 1

/-- Translation of `low_ind`. -/
def low_ind (bo : ByteOrder) (x : FwInt) (partType : IntKind) : Nat :=
  if bo = ByteOrder.big then last_ind x partType else 0

/-- Translation of `byten`. -/
def byten (bo : ByteOrder) (x : FwInt) (n : Nat) : Option FwInt :=
  partn bo x n UInt8K

/-- Translation of `lobyte`. -/
def lobyte (bo : ByteOrder) (x : FwInt) : Option FwInt :=
  byten bo x (low_ind bo x UInt8K)

/-- Translation of `pair`: `get_type(size=size * 2, signed=signed)` may
fail (there is no 128-bit kind), hence the `Option`. -/
def pair (high low : FwInt) : Option FwInt :=
  match getTypeSized (high.kind.size * 2) high.kind.signed with
  | none => none
  | some intType =>
      some (((FwInt.cast intType high).shl (high.kind.size * 8)).or
        (FwInt.cast high.kind low))

/-- Translation of `rol`.  For `count > 0` the count is reduced modulo the
bit width, the spilled top bits are fetched by a right shift and, for
signed kinds, masked down to the low `count` bits before being merged; for
`count <= 0` the mirror rotation is performed with no such masking. -/
def rol (value : FwInt) (count : Int) : FwInt :=
  let dataType := value.kind
  let nbits : Nat := value.kind.size * 8
  if 0 < count then
    let c : Nat := (count % (nbits : Int)).toNat
    let high := value.shr (nbits - c)
    let high :=
      if value.kind.signed then
        high.and (FwInt.not ((FwInt.ofIntK dataType (-1)).shl c))
      else high
    (value.shl c).or high
  else
    let c : Nat := ((-count) % (nbits : Int)).toNat
    let low := value.shl (nbits - c)
    (value.shr c).or low

/-- Translation of `mkcshr`: `int((value >> (count - 1)) & 1)`.  A negative
shift amount raises `ValueError` in Python, modelled by `none`. -/
def mkcshr (value : FwInt) (count : Int) : Option Nat :=
  if count - 1 < 0 then none
  else some ((value.shr (count - 1).toNat).val &&& 1)

/-- Translation of `sets`: reinterpret `x` as the signed kind of its own
size and test for negativity.  `get_type(size=x.get_size(), signed=True)`
resolves to exactly that kind for each of the eight valid kinds. -/
def sets (x : FwInt) : Nat :=
  if (FwInt.cast ⟨x.kind.size, true⟩ x).toInt < 0 then 1 else 0

/-- Translation of `ofsub`, branch structure included: both branches bind
a plain alias (`x2 = x`, `y2 = y`) and evaluate the same flag formula. -/
def ofsub (x y : FwInt) : Nat :=
  if x.kind.size < y.kind.size then
    let x2 := x
    let sx := sets x2
    (sx ^^^ sets y) &&& (sx ^^^ sets (x2.sub y))
  else
    let y2 := y
    let sx := sets x
    (sx ^^^ sets y2) &&& (sx ^^^ sets (x.sub y2))

/-- Translation of `cfadd`: cast `x` and `x + y` to the unsigned kind of
the common size and compare.  `get_type(size=size, signed=False)` resolves
to exactly that kind for the valid sizes. -/
def cfadd (x y : FwInt) : Nat :=
  if (FwInt.cast ⟨max x.kind.size y.kind.size, false⟩ x).toInt >
      (FwInt.cast ⟨max x.kind.size y.kind.size, false⟩ (x.add y)).toInt
  then 1 else 0

/-- Number of binary digits Python's `bin` prints for a nonnegative
integer, `len(bin(n)[2:])`; `bin(0)` is `"0b0"`, one digit. -/
def binDigits (n : Nat) : Nat := if n = 0 then 1 else Nat.log2 n + 1

/-- Length of `bin(i)[2:]` for an arbitrary Python integer: a negative
integer prints as `-0b...`, so the slice keeps the `b` and gains one
character. -/
def pyBinLen (i : Int) : Nat :=
  if i < 0 then 1 + binDigits i.natAbs else binDigits i.toNat

/-- Translation of `clz`: `x.get_size() * 8 - len(bin(int(x))[2:])`. -/
def clz (x : FwInt) : Int := (x.kind.size * 8 : Int) - pyBinLen x.toInt

/-- Pure left rotation of a `w`-bit pattern by `c` positions, the raw
bit-pattern rotation the spec describes. -/
def rotL (w v c : Nat) : Nat := ((v <<< c) % 2 ^ w) ||| (v >>> (w - c))

/-- Pure right rotation of a `w`-bit pattern by `c` positions. -/
def rotR (w v c : Nat) : Nat := (v >>> c) ||| ((v <<< (w - c)) % 2 ^ w)

/-! ### Basic facts about the value model -/

theorem IntKind.bits_def (k : IntKind) : k.bits = k.size * 8 := rfl

theorem two_pow_cast (n : Nat) : ((2 ^ n : Nat) : Int) = (2 : Int) ^ n := by
  push_cast
  ring

theorem FwInt.ofIntK_wf (k : IntKind) (i : Int) : (FwInt.ofIntK k i).Wf := by
  have h0 : (0 : Int) < 2 ^ k.bits := pow_pos (by norm_num) _
  have h1 := Int.emod_nonneg i h0.ne'
  have h2 := Int.emod_lt_of_pos i h0
  have hc := two_pow_cast k.bits
  show (i % (2 ^ k.bits : Int)).toNat < 2 ^ k.bits
  omega

theorem FwInt.toInt_unsigned (x : FwInt) (h : x.kind.signed = false) :
    x.toInt = (x.val : Int) := by
  unfold FwInt.toInt
  simp [h]

theorem FwInt.toInt_emod_self (x : FwInt) (h : x.Wf) :
    x.toInt % ((2 : Int) ^ x.bits) = (x.val : Int) := by
  have hc := two_pow_cast x.bits
  have hv : (x.val : Int) < (2 : Int) ^ x.bits := by
    unfold FwInt.Wf at h
    omega
  unfold FwInt.toInt
  split
  · have : ((x.val : Int) - 2 ^ x.bits) = (x.val : Int) + 2 ^ x.bits * (-1) := by ring
    rw [this, Int.add_mul_emod_self_left, Int.emod_eq_of_lt (by positivity) hv]
  · rw [Int.emod_eq_of_lt (by positivity) hv]

theorem FwInt.cast_toInt_unsigned (k : IntKind) (hk : k.signed = false) (z : FwInt) :
    (FwInt.cast k z).toInt = z.toInt % ((2 : Int) ^ k.bits) := by
  have h0 : (0 : Int) < 2 ^ k.bits := pow_pos (by norm_num) _
  unfold FwInt.cast FwInt.ofIntK
  rw [FwInt.toInt_unsigned _ hk]
  exact Int.toNat_of_nonneg (Int.emod_nonneg _ h0.ne')

theorem bytesLE_length (s : Nat) : ∀ v, (bytesLE s v).length = s := by
  induction s with
  | zero => intro v; rfl
  | succ s ih => intro v; simp [bytesLE, ih]

theorem toBytes_length (x : FwInt) (bo : ByteOrder) :
    (x.toBytes bo).length = x.kind.size := by
  cases bo <;> simp [FwInt.toBytes, bytesLE_length]

theorem natCast_emod_two_pow (a w : Nat) :
    ((a : Int) % (2 : Int) ^ w).toNat = a % 2 ^ w := by
  rw [← two_pow_cast, ← Int.ofNat_emod, Int.toNat_ofNat]

theorem FwInt.uAt_self (x : FwInt) (h : x.Wf) : x.uAt x.bits = x.val := by
  unfold FwInt.uAt
  rw [FwInt.toInt_emod_self x h, Int.toNat_ofNat]

theorem IntKind.common_self (k : IntKind) : k.common k = k := by
  unfold IntKind.common
  simp

theorem emod_eq_add_self_of_neg (a b : Int) (h1 : -b ≤ a) (h2 : a < 0) :
    a % b = a + b := by
  have h3 : (a + b * 1) % b = a % b := Int.add_mul_emod_self_left a b 1
  rw [← h3, mul_one, Int.emod_eq_of_lt (by omega) (by omega)]

theorem FwInt.or_val_same (x y : FwInt) (hk : y.kind = x.kind) (hx : x.Wf) (hy : y.Wf) :
    x.or y = ⟨x.kind, x.val ||| y.val⟩ := by
  have hb : x.kind.bits = y.bits := by
    unfold FwInt.bits
    rw [hk]
  unfold FwInt.or
  rw [hk, IntKind.common_self]
  show (⟨x.kind, x.uAt x.kind.bits ||| y.uAt x.kind.bits⟩ : FwInt) =
    ⟨x.kind, x.val ||| y.val⟩
  rw [show x.kind.bits = x.bits from rfl, FwInt.uAt_self x hx,
    show x.bits = y.bits from hb, FwInt.uAt_self y hy]

theorem FwInt.and_val_same (x y : FwInt) (hk : y.kind = x.kind) (hx : x.Wf) (hy : y.Wf) :
    x.and y = ⟨x.kind, x.val &&& y.val⟩ := by
  have hb : x.kind.bits = y.bits := by
    unfold FwInt.bits
    rw [hk]
  unfold FwInt.and
  rw [hk, IntKind.common_self]
  show (⟨x.kind, x.uAt x.kind.bits &&& y.uAt x.kind.bits⟩ : FwInt) =
    ⟨x.kind, x.val &&& y.val⟩
  rw [show x.kind.bits = x.bits from rfl, FwInt.uAt_self x hx,
    show x.bits = y.bits from hb, FwInt.uAt_self y hy]

theorem FwInt.toInt_mul_emod (x : FwInt) (m : Int) :
    (x.toInt * m) % ((2 : Int) ^ x.bits) = ((x.val : Int) * m) % 2 ^ x.bits := by
  unfold FwInt.toInt
  split
  · rw [show ((x.val : Int) - 2 ^ x.bits) * m =
      (x.val : Int) * m + 2 ^ x.bits * (-m) from by ring, Int.add_mul_emod_self_left]
  · rfl

theorem FwInt.shl_eq (x : FwInt) (n : Nat) :
    x.shl n = ⟨x.kind, (x.val <<< n) % 2 ^ x.bits⟩ := by
  have hv : ((x.toInt * 2 ^ n) % (2 : Int) ^ x.kind.bits).toNat =
      (x.val <<< n) % 2 ^ x.bits := by
    rw [show (2 : Int) ^ x.kind.bits = (2 : Int) ^ x.bits from rfl,
      FwInt.toInt_mul_emod,
      show (x.val : Int) * 2 ^ n = ((x.val * 2 ^ n : Nat) : Int) from by push_cast; ring,
      natCast_emod_two_pow, Nat.shiftLeft_eq]
  unfold FwInt.shl FwInt.ofIntK
  rw [hv]

theorem FwInt.shr_eq_logical (x : FwInt) (n : Nat)
    (h : x.kind.signed = false ∨ x.val < 2 ^ (x.bits - 1)) (hwf : x.Wf) :
    x.shr n = ⟨x.kind, x.val >>> n⟩ := by
  have htoInt : x.toInt = (x.val : Int) := by
    unfold FwInt.toInt
    rcases h with h | h
    · simp [h]
    · rw [if_neg]
      rintro ⟨-, hc⟩
      omega
  have hlt : ((x.val / 2 ^ n : Nat) : Int) < (2 : Int) ^ x.kind.bits := by
    have h1 : x.val / 2 ^ n ≤ x.val := Nat.div_le_self _ _
    have h2 := two_pow_cast x.kind.bits
    have h3 : x.val < 2 ^ x.kind.bits := hwf
    omega
  have hv : ((x.toInt / (2 : Int) ^ n) % (2 : Int) ^ x.kind.bits).toNat =
      x.val >>> n := by
    rw [htoInt, ← two_pow_cast n, ← Int.ofNat_ediv,
      Int.emod_eq_of_lt (by positivity) hlt, Int.toNat_ofNat,
      Nat.shiftRight_eq_div_pow]
  unfold FwInt.shr FwInt.ofIntK
  rw [hv]

theorem FwInt.shr_eq_signed_top (x : FwInt) (n : Nat) (hs : x.kind.signed = true)
    (ht : 2 ^ (x.bits - 1) ≤ x.val) (hwf : x.Wf) (hn : n ≤ x.bits) :
    x.shr n = ⟨x.kind, x.val >>> n + (2 ^ x.bits - 2 ^ (x.bits - n))⟩ := by
  have hcw := two_pow_cast x.bits
  have hcwn := two_pow_cast (x.bits - n)
  have hple : (2 : Nat) ^ (x.bits - n) ≤ 2 ^ x.bits :=
    Nat.pow_le_pow_right (by norm_num) (by omega)
  have htoInt : x.toInt = (x.val : Int) - 2 ^ x.bits := by
    unfold FwInt.toInt
    rw [if_pos ⟨hs, ht⟩]
  have hdiv : x.toInt / (2 : Int) ^ n = (x.val : Int) / 2 ^ n - 2 ^ (x.bits - n) := by
    rw [htoInt,
      show ((x.val : Int) - 2 ^ x.bits) =
        (x.val : Int) + (-((2 : Int) ^ (x.bits - n))) * 2 ^ n from by
          rw [show (2 : Int) ^ x.bits = 2 ^ (x.bits - n) * 2 ^ n from by
            rw [← pow_add]
            congr 1
            omega]
          ring,
      Int.add_mul_ediv_right _ _ (by positivity)]
    ring
  have hvdiv : (x.val : Int) / 2 ^ n = ((x.val / 2 ^ n : Nat) : Int) := by
    rw [← two_pow_cast n, ← Int.ofNat_ediv]
  have hbound : x.val / 2 ^ n < 2 ^ (x.bits - n) := by
    rw [Nat.div_lt_iff_lt_mul (by positivity)]
    calc x.val < 2 ^ x.bits := hwf
      _ = 2 ^ (x.bits - n) * 2 ^ n := by
          rw [← pow_add]
          congr 1
          omega
  have ht1 : (0 : Int) ≤ (x.val : Int) / 2 ^ n :=
    Int.ediv_nonneg (by positivity) (by positivity)
  have ht2 : (2 : Int) ^ (x.bits - n) ≤ 2 ^ x.bits :=
    pow_le_pow_right (by norm_num) (by omega)
  have ht3 : (x.val : Int) / 2 ^ n < (2 : Int) ^ (x.bits - n) := by
    rw [hvdiv, ← two_pow_cast]
    exact_mod_cast hbound
  have hemod : ((x.val : Int) / 2 ^ n - 2 ^ (x.bits - n)) % (2 : Int) ^ x.bits =
      (x.val : Int) / 2 ^ n - 2 ^ (x.bits - n) + 2 ^ x.bits := by
    apply emod_eq_add_self_of_neg
    · omega
    · omega
  have hv : ((x.toInt / (2 : Int) ^ n) % (2 : Int) ^ x.kind.bits).toNat =
      x.val >>> n + (2 ^ x.bits - 2 ^ (x.bits - n)) := by
    rw [show (2 : Int) ^ x.kind.bits = (2 : Int) ^ x.bits from rfl, hdiv, hemod, hvdiv,
      Nat.shiftRight_eq_div_pow]
    omega
  unfold FwInt.shr FwInt.ofIntK
  rw [hv]

theorem rol_mask_val (k : IntKind) (c : Nat) (hs : k.signed = true) (hc : c < k.bits) :
    FwInt.not ((FwInt.ofIntK k (-1)).shl c) = ⟨k, 2 ^ c - 1⟩ := by
  have hcb := two_pow_cast k.bits
  have hcc := two_pow_cast c
  have hposb : (0 : Int) < 2 ^ k.bits := by positivity
  have hposc : (0 : Int) < 2 ^ c := by positivity
  have hcp : (2 : Nat) ^ c < 2 ^ k.bits := Nat.pow_lt_pow_right (by norm_num) hc
  have hc1 : (2 : Nat) ^ (k.bits - 1) ≤ 2 ^ k.bits - 2 ^ c := by
    have h2 : (2 : Nat) ^ c ≤ 2 ^ (k.bits - 1) :=
      Nat.pow_le_pow_right (by norm_num) (by omega)
    have h3 : (2 : Nat) ^ k.bits = 2 ^ (k.bits - 1) * 2 := by
      rw [← Nat.pow_succ]
      congr 1
      omega
    have h4 : (0 : Nat) < 2 ^ (k.bits - 1) := by positivity
    omega
  have h1 : FwInt.ofIntK k (-1) = ⟨k, 2 ^ k.bits - 1⟩ := by
    unfold FwInt.ofIntK
    rw [show (-1 : Int) % 2 ^ k.bits = -1 + 2 ^ k.bits from
        emod_eq_add_self_of_neg _ _ (by omega) (by omega),
      show (-1 + (2 : Int) ^ k.bits).toNat = 2 ^ k.bits - 1 from by omega]
  have h2 : (⟨k, 2 ^ k.bits - 1⟩ : FwInt).shl c = ⟨k, 2 ^ k.bits - 2 ^ c⟩ := by
    have htop : (2 : Nat) ^ ((⟨k, 2 ^ k.bits - 1⟩ : FwInt).bits - 1) ≤ 2 ^ k.bits - 1 := by
      show (2 : Nat) ^ (k.bits - 1) ≤ 2 ^ k.bits - 1
      have h4 : (0 : Nat) < 2 ^ c := by positivity
      omega
    have htoInt : (⟨k, 2 ^ k.bits - 1⟩ : FwInt).toInt = -1 := by
      unfold FwInt.toInt
      rw [if_pos ⟨hs, htop⟩]
      show ((2 ^ k.bits - 1 : Nat) : Int) - 2 ^ k.bits = -1
      omega
    unfold FwInt.shl FwInt.ofIntK
    dsimp only
    rw [htoInt,
      show (-1 : Int) * 2 ^ c % 2 ^ k.bits = -1 * 2 ^ c + 2 ^ k.bits from
        emod_eq_add_self_of_neg _ _ (by omega) (by omega),
      show (-1 * (2 : Int) ^ c + 2 ^ k.bits).toNat = 2 ^ k.bits - 2 ^ c from by omega]
  rw [h1, h2]
  have htop2 : 2 ^ ((⟨k, 2 ^ k.bits - 2 ^ c⟩ : FwInt).bits - 1) ≤ 2 ^ k.bits - 2 ^ c := hc1
  have htoInt2 : (⟨k, 2 ^ k.bits - 2 ^ c⟩ : FwInt).toInt = -((2 : Int) ^ c) := by
    unfold FwInt.toInt
    rw [if_pos ⟨hs, htop2⟩]
    show ((2 ^ k.bits - 2 ^ c : Nat) : Int) - 2 ^ k.bits = -(2 : Int) ^ c
    omega
  unfold FwInt.not FwInt.ofIntK
  dsimp only
  rw [htoInt2,
    show -(-(2 : Int) ^ c) - 1 = (2 : Int) ^ c - 1 from by ring,
    show ((2 : Int) ^ c - 1) % 2 ^ k.bits = (2 : Int) ^ c - 1 from
      Int.emod_eq_of_lt (by omega) (by omega),
    show ((2 : Int) ^ c - 1).toNat = 2 ^ c - 1 from by omega]

theorem rotL_lt {w v c : Nat} (hv : v < 2 ^ w) : rotL w v c < 2 ^ w := by
  unfold rotL
  apply Nat.or_lt_two_pow
  · exact Nat.mod_lt _ (by positivity)
  · calc v >>> (w - c) ≤ v := by
          rw [Nat.shiftRight_eq_div_pow]
          exact Nat.div_le_self _ _
      _ < 2 ^ w := hv

theorem rotR_lt {w v c : Nat} (hv : v < 2 ^ w) : rotR w v c < 2 ^ w := by
  unfold rotR
  apply Nat.or_lt_two_pow
  · calc v >>> c ≤ v := by
          rw [Nat.shiftRight_eq_div_pow]
          exact Nat.div_le_self _ _
      _ < 2 ^ w := hv
  · exact Nat.mod_lt _ (by positivity)

theorem rotL_testBit {w v c i : Nat} (hv : v < 2 ^ w) (hc : c < w) (hi : i < w) :
    (rotL w v c).testBit i = v.testBit ((i + (w - c)) % w) := by
  unfold rotL
  rw [Nat.testBit_or, Nat.testBit_mod_two_pow, Nat.testBit_shiftLeft,
    Nat.testBit_shiftRight]
  by_cases hci : c ≤ i
  · have h1 : v.testBit (w - c + i) = false :=
      Nat.testBit_lt_two_pow
        (lt_of_lt_of_le hv (Nat.pow_le_pow_right (by norm_num) (by omega)))
    have h2 : (i + (w - c)) % w = i - c := by
      rw [show i + (w - c) = (i - c) + w from by omega, Nat.add_mod_right,
        Nat.mod_eq_of_lt (by omega)]
    rw [h1, h2]
    simp [hi, hci]
  · have h2 : (i + (w - c)) % w = w - c + i := by
      rw [Nat.mod_eq_of_lt (by omega), Nat.add_comm]
    rw [h2]
    simp [hci]

theorem rotR_testBit {w v c i : Nat} (hv : v < 2 ^ w) (hc : c < w) (hi : i < w) :
    (rotR w v c).testBit i = v.testBit ((i + c) % w) := by
  unfold rotR
  rw [Nat.testBit_or, Nat.testBit_shiftRight, Nat.testBit_mod_two_pow,
    Nat.testBit_shiftLeft]
  by_cases h2 : i < w - c
  · have hidx : (i + c) % w = c + i := by
      rw [Nat.mod_eq_of_lt (by omega), Nat.add_comm]
    rw [hidx]
    simp [show ¬(w - c ≤ i) from by omega]
  · have h1 : v.testBit (c + i) = false :=
      Nat.testBit_lt_two_pow
        (lt_of_lt_of_le hv (Nat.pow_le_pow_right (by norm_num) (by omega)))
    have hidx : (i + c) % w = i - (w - c) := by
      rw [show i + c = (i - (w - c)) + w from by omega, Nat.add_mod_right,
        Nat.mod_eq_of_lt (by omega)]
    rw [h1, hidx]
    simp [hi, show w - c ≤ i from by omega]

theorem rotR_rotL {w v c : Nat} (hv : v < 2 ^ w) (hc : c < w) :
    rotR w (rotL w v c) c = v := by
  have hw : 0 < w := by omega
  apply Nat.eq_of_testBit_eq
  intro i
  by_cases hi : i < w
  · rw [rotR_testBit (rotL_lt hv) hc hi,
      rotL_testBit hv hc (Nat.mod_lt _ hw),
      Nat.mod_add_mod, show i + c + (w - c) = i + w from by omega,
      Nat.add_mod_right, Nat.mod_eq_of_lt hi]
  · rw [Nat.testBit_lt_two_pow
        (lt_of_lt_of_le (rotR_lt (rotL_lt hv)) (Nat.pow_le_pow_right (by norm_num) (by omega))),
      Nat.testBit_lt_two_pow
        (lt_of_lt_of_le hv (Nat.pow_le_pow_right (by norm_num) (by omega)))]

theorem rotR_zero {w v : Nat} (hv : v < 2 ^ w) : rotR w v 0 = v := by
  unfold rotR
  rw [Nat.shiftRight_zero, Nat.sub_zero, Nat.shiftLeft_eq, Nat.mul_mod_left]
  simp

theorem shiftRight_lt_pow {v W C : Nat} (hv : v < 2 ^ W) (hC : C ≤ W) :
    v >>> (W - C) < 2 ^ C := by
  rw [Nat.shiftRight_eq_div_pow, Nat.div_lt_iff_lt_mul (by positivity)]
  calc v < 2 ^ W := hv
    _ = 2 ^ C * 2 ^ (W - C) := by
        rw [← pow_add]
        congr 1
        omega

theorem masked_high_val {W C A : Nat} (hC : C < W) (hA : A < 2 ^ C) :
    (A + (2 ^ W - 2 ^ C)) &&& (2 ^ C - 1) = A := by
  rw [Nat.and_pow_two_sub_one_eq_mod]
  have hfact : (2 : Nat) ^ W = 2 ^ C * 2 ^ (W - C) := by
    rw [← pow_add]
    congr 1
    omega
  obtain ⟨q, hq2⟩ : ∃ q, 2 ^ (W - C) = q + 1 :=
    ⟨2 ^ (W - C) - 1, by have : (0 : Nat) < 2 ^ (W - C) := by positivity
                         omega⟩
  have hstep : A + (2 ^ W - 2 ^ C) = A + 2 ^ C * q := by
    rw [hfact, hq2, Nat.mul_succ]
    omega
  rw [hstep, Nat.add_mul_mod_self_left, Nat.mod_eq_of_lt hA]

theorem rol_pos_val (x : FwInt) (count : Int) (hwf : x.Wf) (hsz : 0 < x.kind.size)
    (hc : 0 < count) :
    rol x count =
      ⟨x.kind, rotL (x.kind.size * 8) x.val
        ((count % ((x.kind.size * 8 : Nat) : Int)).toNat)⟩ := by
  have hwpos : 0 < x.kind.size * 8 := by omega
  have hCw : (count % ((x.kind.size * 8 : Nat) : Int)).toNat < x.kind.size * 8 := by
    have h1 : 0 ≤ count % ((x.kind.size * 8 : Nat) : Int) :=
      Int.emod_nonneg _ (by exact_mod_cast hwpos.ne')
    have h2 : count % ((x.kind.size * 8 : Nat) : Int) <
        ((x.kind.size * 8 : Nat) : Int) := Int.emod_lt_of_pos _ (by exact_mod_cast hwpos)
    omega
  simp only [rol]
  rw [if_pos hc]
  generalize hCdef : (count % ((x.kind.size * 8 : Nat) : Int)).toNat = C at hCw ⊢
  have hbits : x.bits = x.kind.size * 8 := rfl
  have hv2 : x.val < 2 ^ (x.kind.size * 8) := hwf
  have hA : x.val >>> (x.kind.size * 8 - C) < 2 ^ C := shiftRight_lt_pow hv2 (by omega)
  have hCpow : (2 : Nat) ^ C ≤ 2 ^ (x.kind.size * 8) :=
    Nat.pow_le_pow_right (by norm_num) (by omega)
  have hwfA : (⟨x.kind, x.val >>> (x.kind.size * 8 - C)⟩ : FwInt).Wf := by
    show x.val >>> (x.kind.size * 8 - C) < 2 ^ (x.kind.size * 8)
    omega
  have hwfL : (⟨x.kind, (x.val <<< C) % 2 ^ (x.kind.size * 8)⟩ : FwInt).Wf := by
    show (x.val <<< C) % 2 ^ (x.kind.size * 8) < 2 ^ (x.kind.size * 8)
    exact Nat.mod_lt _ (by positivity)
  have hhigh : (if x.kind.signed = true then
        (x.shr (x.kind.size * 8 - C)).and
          (FwInt.not ((FwInt.ofIntK x.kind (-1)).shl C))
      else x.shr (x.kind.size * 8 - C)) =
      ⟨x.kind, x.val >>> (x.kind.size * 8 - C)⟩ := by
    by_cases hs : x.kind.signed = true
    · rw [if_pos hs, rol_mask_val x.kind C hs hCw]
      have hwfM : (⟨x.kind, 2 ^ C - 1⟩ : FwInt).Wf := by
        show 2 ^ C - 1 < 2 ^ (x.kind.size * 8)
        omega
      by_cases htop : 2 ^ (x.bits - 1) ≤ x.val
      · rw [FwInt.shr_eq_signed_top x _ hs htop hwf (by omega)]
        have hwfT : (⟨x.kind, x.val >>> (x.kind.size * 8 - C) +
            (2 ^ x.bits - 2 ^ (x.bits - (x.kind.size * 8 - C)))⟩ : FwInt).Wf := by
          show x.val >>> (x.kind.size * 8 - C) +
            (2 ^ x.bits - 2 ^ (x.bits - (x.kind.size * 8 - C))) < 2 ^ (x.kind.size * 8)
          rw [hbits, show x.kind.size * 8 - (x.kind.size * 8 - C) = C from by omega]
          omega
        rw [FwInt.and_val_same
          ⟨x.kind, x.val >>> (x.kind.size * 8 - C) +
            (2 ^ x.bits - 2 ^ (x.bits - (x.kind.size * 8 - C)))⟩
          ⟨x.kind, 2 ^ C - 1⟩ rfl hwfT hwfM]
        dsimp only
        rw [hbits, show x.kind.size * 8 - (x.kind.size * 8 - C) = C from by omega]
        rw [masked_high_val hCw hA]
      · rw [FwInt.shr_eq_logical x _ (Or.inr (by omega)) hwf]
        rw [FwInt.and_val_same ⟨x.kind, x.val >>> (x.kind.size * 8 - C)⟩
          ⟨x.kind, 2 ^ C - 1⟩ rfl hwfA hwfM]
        dsimp only
        rw [Nat.and_pow_two_sub_one_eq_mod, Nat.mod_eq_of_lt hA]
    · rw [if_neg hs]
      exact FwInt.shr_eq_logical x _ (Or.inl (by simpa using hs)) hwf
  rw [hhigh, FwInt.shl_eq, hbits,
    FwInt.or_val_same ⟨x.kind, (x.val <<< C) % 2 ^ (x.kind.size * 8)⟩
      ⟨x.kind, x.val >>> (x.kind.size * 8 - C)⟩ rfl hwfL hwfA]
  rfl

theorem rol_nonpos_unsigned_val (x : FwInt) (count : Int) (hwf : x.Wf)
    (hsz : 0 < x.kind.size) (hc : ¬0 < count) (hs : x.kind.signed = false) :
    rol x count =
      ⟨x.kind, rotR (x.kind.size * 8) x.val
        (((-count) % ((x.kind.size * 8 : Nat) : Int)).toNat)⟩ := by
  have hwpos : 0 < x.kind.size * 8 := by omega
  have hCw : ((-count) % ((x.kind.size * 8 : Nat) : Int)).toNat < x.kind.size * 8 := by
    have h1 : 0 ≤ (-count) % ((x.kind.size * 8 : Nat) : Int) :=
      Int.emod_nonneg _ (by exact_mod_cast hwpos.ne')
    have h2 : (-count) % ((x.kind.size * 8 : Nat) : Int) <
        ((x.kind.size * 8 : Nat) : Int) := Int.emod_lt_of_pos _ (by exact_mod_cast hwpos)
    omega
  simp only [rol]
  rw [if_neg hc]
  generalize hCdef : ((-count) % ((x.kind.size * 8 : Nat) : Int)).toNat = C at hCw ⊢
  have hbits : x.bits = x.kind.size * 8 := rfl
  have hv2 : x.val < 2 ^ (x.kind.size * 8) := hwf
  have hwfR : (⟨x.kind, x.val >>> C⟩ : FwInt).Wf := by
    show x.val >>> C < 2 ^ (x.kind.size * 8)
    calc x.val >>> C ≤ x.val := by
          rw [Nat.shiftRight_eq_div_pow]
          exact Nat.div_le_self _ _
      _ < 2 ^ (x.kind.size * 8) := hv2
  have hwfL : (⟨x.kind, (x.val <<< (x.kind.size * 8 - C)) % 2 ^ (x.kind.size * 8)⟩ :
      FwInt).Wf := by
    show (x.val <<< (x.kind.size * 8 - C)) % 2 ^ (x.kind.size * 8) <
      2 ^ (x.kind.size * 8)
    exact Nat.mod_lt _ (by positivity)
  rw [FwInt.shr_eq_logical x C (Or.inl hs) hwf, FwInt.shl_eq, hbits,
    FwInt.or_val_same ⟨x.kind, x.val >>> C⟩
      ⟨x.kind, (x.val <<< (x.kind.size * 8 - C)) % 2 ^ (x.kind.size * 8)⟩ rfl hwfR hwfL]
  rfl

/-- C3 amended: the rotate-then-unrotate inverse law holds for the four
unsigned kinds (for signed kinds the right rotation leaks sign bits, see
the counterexample). -/
theorem claim_C3_rotate_inverse_unsigned (x : FwInt) (n : Nat)
    (hs : x.kind.signed = false) (hwf : x.Wf) (hsz : 0 < x.kind.size)
    (hn : n < x.kind.size * 8) :
    rol (rol x (n : Int)) (-(n : Int)) = x := by
  have hv2 : x.val < 2 ^ (x.kind.size * 8) := hwf
  by_cases h0 : n = 0
  · subst h0
    have hz : rol x ((0 : Nat) : Int) = x := by
      rw [rol_nonpos_unsigned_val x _ hwf hsz (by omega) hs,
        show ((-(((0 : Nat)) : Int)) % ((x.kind.size * 8 : Nat) : Int)).toNat = 0 from
          by simp,
        rotR_zero hv2]
    rw [show (-(((0 : Nat)) : Int)) = (((0 : Nat)) : Int) from by simp, hz, hz]
  · have hpos : (0 : Int) < (n : Int) := by exact_mod_cast Nat.pos_of_ne_zero h0
    have hCn : (((n : Nat) : Int) % ((x.kind.size * 8 : Nat) : Int)).toNat = n := by
      rw [Int.emod_eq_of_lt (by positivity) (by exact_mod_cast hn)]
      simp
    rw [rol_pos_val x _ hwf hsz hpos, hCn]
    have hwfy : (⟨x.kind, rotL (x.kind.size * 8) x.val n⟩ : FwInt).Wf := by
      show rotL (x.kind.size * 8) x.val n < 2 ^ (x.kind.size * 8)
      exact rotL_lt hv2
    rw [rol_nonpos_unsigned_val _ _ hwfy hsz (by omega) hs,
      show (-(-((n : Nat) : Int))) = ((n : Nat) : Int) from neg_neg _, hCn]
    dsimp only
    rw [rotR_rotL hv2 hn]

theorem claim_C3_witness :
    (⟨UInt8K, 0x13⟩ : FwInt).kind.signed = false ∧
    rol (rol ⟨UInt8K, 0x13⟩ ((3 : Nat) : Int)) (-((3 : Nat) : Int)) = ⟨UInt8K, 0x13⟩ :=
  ⟨rfl, claim_C3_rotate_inverse_unsigned ⟨UInt8K, 0x13⟩ 3 rfl (by decide) (by decide)
    (by decide)⟩

/-- C4 amended: for every positive count, `rol` (all eight kinds, the
signed ones included — the masking makes the left branch exact) equals the
pure left rotation of the raw pattern by `count mod width`; for
non-positive counts the same holds only for unsigned values, the signed
right rotation being broken by sign extension (see the counterexample). -/
theorem claim_C4_rol_pure_rotation (x : FwInt) (count : Int) (hwf : x.Wf)
    (hsz : 0 < x.kind.size) :
    (0 < count → rol x count =
      ⟨x.kind, rotL (x.kind.size * 8) x.val
        ((count % ((x.kind.size * 8 : Nat) : Int)).toNat)⟩) ∧
    (count ≤ 0 → x.kind.signed = false → rol x count =
      ⟨x.kind, rotR (x.kind.size * 8) x.val
        (((-count) % ((x.kind.size * 8 : Nat) : Int)).toNat)⟩) :=
  ⟨fun h => rol_pos_val x count hwf hsz h,
   fun h hs => rol_nonpos_unsigned_val x count hwf hsz (by omega) hs⟩

theorem claim_C4_witness :
    rol ⟨UInt8K, 0x81⟩ 3 = ⟨UInt8K, 0x0C⟩ ∧ rol ⟨Int8K, 0x81⟩ 3 = ⟨Int8K, 0x0C⟩ := by
  constructor
  · rw [(claim_C4_rol_pure_rotation ⟨UInt8K, 0x81⟩ 3 (by decide) (by decide)).1
      (by decide)]
    decide
  · rw [(claim_C4_rol_pure_rotation ⟨Int8K, 0x81⟩ 3 (by decide) (by decide)).1
      (by decide)]
    decide

/-! ### Claim theorems -/

/-- C1: `ofsub(x, y)` returns `(sx XOR sets(y)) AND (sx XOR sets(x - y))`
with `sx = sets(x)` for every pair of operands, independently of which
operand is the wider one (both source branches evaluate this very
formula), each operand's `sets` check running at that operand's own
declared width, and the subtraction `x - y` performed at the common width
`max(width(x), width(y))`. -/
theorem claim_C1_ofsub_common_width (x y : FwInt)
    (hx : x.kind ∈ intTypes) (hy : y.kind ∈ intTypes) :
    ofsub x y = (sets x ^^^ sets y) &&& (sets x ^^^ sets (x.sub y)) ∧
    (x.sub y).kind.bits = max x.kind.bits y.kind.bits := by
  constructor
  · unfold ofsub
    split <;> rfl
  · simp [FwInt.sub, FwInt.ofIntK, IntKind.common, IntKind.bits]
    omega

theorem claim_C1_witness :
    (⟨Int8K, 0x80⟩ : FwInt).kind ∈ intTypes ∧
    (⟨Int16K, 1⟩ : FwInt).kind ∈ intTypes ∧
    (ofsub ⟨Int8K, 0x80⟩ ⟨Int16K, 1⟩ =
        (sets ⟨Int8K, 0x80⟩ ^^^ sets ⟨Int16K, 1⟩) &&&
          (sets ⟨Int8K, 0x80⟩ ^^^ sets (FwInt.sub ⟨Int8K, 0x80⟩ ⟨Int16K, 1⟩)) ∧
      (FwInt.sub ⟨Int8K, 0x80⟩ ⟨Int16K, 1⟩).kind.bits =
        max (⟨Int8K, 0x80⟩ : FwInt).kind.bits (⟨Int16K, 1⟩ : FwInt).kind.bits) :=
  ⟨by decide, by decide,
    claim_C1_ofsub_common_width ⟨Int8K, 0x80⟩ ⟨Int16K, 1⟩ (by decide) (by decide)⟩

/-- C2: `cfadd(x, y)` returns 1 exactly when the sum of the operands,
reinterpreted as unsigned at the common width and wrapped there, is
smaller than `x`'s unsigned reinterpretation; otherwise 0. -/
theorem claim_C2_cfadd_unsigned_carry (x y : FwInt)
    (hx : x.kind ∈ intTypes) (hy : y.kind ∈ intTypes) :
    cfadd x y =
      if (x.toInt % (2 : Int) ^ (max x.kind.size y.kind.size * 8)
            + y.toInt % (2 : Int) ^ (max x.kind.size y.kind.size * 8))
            % (2 : Int) ^ (max x.kind.size y.kind.size * 8)
          < x.toInt % (2 : Int) ^ (max x.kind.size y.kind.size * 8)
      then 1 else 0 := by
  have hpos : (0 : Int) < 2 ^ (max x.kind.size y.kind.size * 8) :=
    pow_pos (by norm_num) _
  have hadd : (x.add y).toInt % ((2 : Int) ^ (max x.kind.size y.kind.size * 8)) =
      (x.toInt + y.toInt) % ((2 : Int) ^ (max x.kind.size y.kind.size * 8)) := by
    have hwf := FwInt.ofIntK_wf (x.kind.common y.kind) (x.toInt + y.toInt)
    have h2 := FwInt.toInt_emod_self
      (FwInt.ofIntK (x.kind.common y.kind) (x.toInt + y.toInt)) hwf
    rw [show (FwInt.ofIntK (x.kind.common y.kind) (x.toInt + y.toInt)).bits =
        max x.kind.size y.kind.size * 8 from rfl] at h2
    show (FwInt.ofIntK (x.kind.common y.kind) (x.toInt + y.toInt)).toInt % _ = _
    rw [h2,
      show (FwInt.ofIntK (x.kind.common y.kind) (x.toInt + y.toInt)).val =
        ((x.toInt + y.toInt) % (2 : Int) ^ (max x.kind.size y.kind.size * 8)).toNat
        from rfl,
      Int.toNat_of_nonneg (Int.emod_nonneg _ hpos.ne')]
  have h1 : (FwInt.cast ⟨max x.kind.size y.kind.size, false⟩ x).toInt =
      x.toInt % (2 : Int) ^ (max x.kind.size y.kind.size * 8) := by
    rw [FwInt.cast_toInt_unsigned _ rfl]
    rfl
  have h2 : (FwInt.cast ⟨max x.kind.size y.kind.size, false⟩ (x.add y)).toInt =
      (x.toInt % (2 : Int) ^ (max x.kind.size y.kind.size * 8)
        + y.toInt % (2 : Int) ^ (max x.kind.size y.kind.size * 8))
        % (2 : Int) ^ (max x.kind.size y.kind.size * 8) := by
    rw [FwInt.cast_toInt_unsigned _ rfl]
    rw [show IntKind.bits ⟨max x.kind.size y.kind.size, false⟩ =
        max x.kind.size y.kind.size * 8 from rfl]
    rw [hadd, Int.add_emod]
  unfold cfadd
  rw [h1, h2]

theorem claim_C2_witness : cfadd ⟨UInt8K, 255⟩ ⟨UInt8K, 1⟩ = 1 := by
  rw [claim_C2_cfadd_unsigned_carry ⟨UInt8K, 255⟩ ⟨UInt8K, 1⟩ (by decide) (by decide)]
  decide

/-- C3 counterexample: for the signed 8-bit value `0x20`, rotating left by
2 and then by -2 yields `0xE0`, not the original value — the unmasked
arithmetic right shift in the right-rotation branch leaks sign bits. -/
theorem claim_C3_counterexample :
    rol (rol ⟨Int8K, 0x20⟩ (2 : Int)) (-2) = ⟨Int8K, 0xE0⟩ ∧
    rol (rol ⟨Int8K, 0x20⟩ (2 : Int)) (-2) ≠ ⟨Int8K, 0x20⟩ := by
  decide

/-- C4 counterexample: for the signed 8-bit value `0x80` and count -1 the
code returns `0xC0`, while the pure rotation of the bit pattern right by 1
is `0x40` — sign-extension bits leak for non-positive counts. -/
theorem claim_C4_counterexample :
    rol ⟨Int8K, 0x80⟩ (-1) = ⟨Int8K, 0xC0⟩ ∧
    rotR 8 0x80 1 = 0x40 ∧ (0xC0 : Nat) ≠ 0x40 := by
  decide

theorem FwInt.or_val_absorb (x y : FwInt) (hkx : x.kind.signed = false)
    (hky : y.kind.signed = false) (hsz : y.kind.size ≤ x.kind.size)
    (hx : x.Wf) (hy : y.Wf) :
    x.or y = ⟨x.kind, x.val ||| y.val⟩ := by
  have hk : x.kind.common y.kind = x.kind := by
    unfold IntKind.common
    rw [Nat.max_eq_left hsz]
  unfold FwInt.or
  rw [hk]
  show (⟨x.kind, x.uAt x.kind.bits ||| y.uAt x.kind.bits⟩ : FwInt) =
    ⟨x.kind, x.val ||| y.val⟩
  rw [show x.kind.bits = x.bits from rfl, FwInt.uAt_self x hx]
  have hyv : y.uAt x.bits = y.val := by
    unfold FwInt.uAt
    rw [FwInt.toInt_unsigned y hky]
    have hbx := two_pow_cast x.bits
    have hby := two_pow_cast y.bits
    have h2 : y.val < 2 ^ y.bits := hy
    have h3 : (2 : Nat) ^ y.bits ≤ 2 ^ x.bits :=
      Nat.pow_le_pow_right (by norm_num)
        (by show y.kind.size * 8 ≤ x.kind.size * 8
            omega)
    have h1 : (y.val : Int) < (2 : Int) ^ x.bits := by omega
    rw [Int.emod_eq_of_lt (by positivity) h1, Int.toNat_ofNat]
  rw [hyv]

/-- C5 amended: for an unsigned `high` whose doubled size still resolves
(8-, 16- or 32-bit), `pair` does return the double-width unsigned value
whose upper half is `high`'s pattern and whose lower half is `low`
converted to `high`'s kind; a 64-bit high fails type resolution, and a
signed high with a negative converted low floods the upper half (see the
counterexample). -/
theorem claim_C5_pair_unsigned (high low : FwInt) (hsg : high.kind.signed = false)
    (hwf : high.Wf)
    (hsz : high.kind.size = 1 ∨ high.kind.size = 2 ∨ high.kind.size = 4) :
    pair high low =
      some ⟨⟨high.kind.size * 2, false⟩,
        (high.val <<< (high.kind.size * 8)) ||| (FwInt.cast high.kind low).val⟩ := by
  have hget : getTypeSized (high.kind.size * 2) high.kind.signed =
      some ⟨high.kind.size * 2, false⟩ := by
    rcases hsz with h | h | h <;> rw [h, hsg] <;> decide
  have hb1 : high.val < 2 ^ (high.kind.size * 8) := hwf
  have hshift : high.val <<< (high.kind.size * 8) < 2 ^ (high.kind.size * 2 * 8) := by
    rw [Nat.shiftLeft_eq]
    calc high.val * 2 ^ (high.kind.size * 8)
        < 2 ^ (high.kind.size * 8) * 2 ^ (high.kind.size * 8) :=
          (Nat.mul_lt_mul_right (by positivity)).mpr hb1
      _ = 2 ^ (high.kind.size * 2 * 8) := by
          rw [← pow_add]
          congr 1
          omega
  have hcast1 : FwInt.cast ⟨high.kind.size * 2, false⟩ high =
      ⟨⟨high.kind.size * 2, false⟩, high.val⟩ := by
    unfold FwInt.cast FwInt.ofIntK
    dsimp only [IntKind.bits]
    rw [FwInt.toInt_unsigned high hsg]
    have hc1 := two_pow_cast (high.kind.size * 2 * 8)
    have hb2 : (2 : Nat) ^ (high.kind.size * 8) ≤ 2 ^ (high.kind.size * 2 * 8) :=
      Nat.pow_le_pow_right (by norm_num) (by omega)
    have hlt : (high.val : Int) < (2 : Int) ^ (high.kind.size * 2 * 8) := by omega
    rw [Int.emod_eq_of_lt (by positivity) hlt, Int.toNat_ofNat]
  have hshl : (⟨⟨high.kind.size * 2, false⟩, high.val⟩ : FwInt).shl
      (high.kind.size * 8) =
      ⟨⟨high.kind.size * 2, false⟩, high.val <<< (high.kind.size * 8)⟩ := by
    rw [FwInt.shl_eq]
    show (⟨⟨high.kind.size * 2, false⟩,
      (high.val <<< (high.kind.size * 8)) % 2 ^ (high.kind.size * 2 * 8)⟩ : FwInt) = _
    rw [Nat.mod_eq_of_lt hshift]
  unfold pair
  rw [hget]
  show some (((FwInt.cast ⟨high.kind.size * 2, false⟩ high).shl
      (high.kind.size * 8)).or (FwInt.cast high.kind low)) = _
  rw [hcast1, hshl,
    FwInt.or_val_absorb ⟨⟨high.kind.size * 2, false⟩,
        high.val <<< (high.kind.size * 8)⟩ (FwInt.cast high.kind low)
      rfl hsg (by show high.kind.size ≤ high.kind.size * 2
                  omega)
      (by show high.val <<< (high.kind.size * 8) < 2 ^ (high.kind.size * 2 * 8)
          exact hshift)
      (FwInt.ofIntK_wf high.kind low.toInt)]

theorem claim_C5_witness :
    pair ⟨UInt32K, 1⟩ ⟨UInt32K, 0xFFFFFFFF⟩ = some ⟨⟨8, false⟩, 0x1FFFFFFFF⟩ := by
  rw [claim_C5_pair_unsigned ⟨UInt32K, 1⟩ ⟨UInt32K, 0xFFFFFFFF⟩ rfl (by decide)
    (by decide)]
  decide

/-- C5 counterexample: for signed high `0x01` and low `0xFF` (8-bit), the
OR of the widened high with the sign-extended low floods the upper half:
the code returns `0xFFFF`, not `(widen(high) << 8) | 0xFF = 0x01FF`. -/
theorem claim_C5_counterexample :
    pair ⟨Int8K, 1⟩ ⟨Int8K, 0xFF⟩ = some ⟨⟨2, true⟩, 0xFFFF⟩ ∧
    (0xFFFF : Nat) ≠ 0x01FF := by
  decide

theorem getTypeSized_eq (sz : Nat) (sg : Bool) :
    getTypeSized sz sg =
      if sz = 1 ∨ sz = 2 ∨ sz = 4 ∨ sz = 8 then some ⟨sz, sg⟩ else none := by
  by_cases h1 : sz = 1
  · subst h1
    cases sg <;> decide
  by_cases h2 : sz = 2
  · subst h2
    cases sg <;> decide
  by_cases h4 : sz = 4
  · subst h4
    cases sg <;> decide
  by_cases h8 : sz = 8
  · subst h8
    cases sg <;> decide
  rw [if_neg (by tauto)]
  unfold getTypeSized
  rw [List.find?_eq_none]
  intro k hk
  unfold intTypes at hk
  fin_cases hk <;>
    · dsimp only [Int8K, Int16K, Int32K, Int64K, UInt8K, UInt16K, UInt32K, UInt64K]
      rw [Bool.and_eq_true, beq_iff_eq, beq_iff_eq]
      rintro ⟨hsz', -⟩
      omega

theorem take_one_dropWhile (p : Char → Bool) (l : List Char) :
    ∀ c ∈ (l.dropWhile p).take 1, p c = false := by
  induction l with
  | nil =>
      intro c hc
      simp at hc
  | cons a t ih =>
      intro c hc
      by_cases hp : p a = true
      · rw [List.dropWhile_cons, if_pos hp] at hc
        exact ih c hc
      · rw [List.dropWhile_cons, if_neg hp] at hc
        simp at hc
        rw [hc]
        exact Bool.eq_false_iff.mpr hp

theorem takeWhile_replicate_cons (p : Char → Bool) (a : Char) (hp : p a = true)
    (b : Char) (hb : p b = false) (m : Nat) (l : List Char) :
    (List.replicate m a ++ b :: l).takeWhile p = List.replicate m a ∧
    (List.replicate m a ++ b :: l).dropWhile p = b :: l := by
  induction m with
  | zero =>
      constructor
      · show ((b :: l).takeWhile p) = []
        simp [List.takeWhile_cons, hb]
      · show ((b :: l).dropWhile p) = b :: l
        simp [List.dropWhile_cons, hb]
  | succ m ih =>
      constructor
      · simp only [List.replicate_succ, List.cons_append, List.takeWhile_cons, hp,
          if_true]
        rw [ih.1]
      · simp only [List.replicate_succ, List.cons_append, List.dropWhile_cons, hp,
          if_true]
        exact ih.2

theorem takeWhile_all_append (p : Char → Bool) (ds rest : List Char)
    (hds : ∀ c ∈ ds, p c = true) (hrest : ∀ c ∈ rest.take 1, p c = false) :
    (ds ++ rest).takeWhile p = ds ∧ (ds ++ rest).dropWhile p = rest := by
  induction ds with
  | nil =>
      cases rest with
      | nil => exact ⟨rfl, rfl⟩
      | cons r rt =>
          have hr : p r = false := hrest r (by simp)
          constructor
          · show ((r :: rt).takeWhile p) = []
            simp [List.takeWhile_cons, hr]
          · show ((r :: rt).dropWhile p) = r :: rt
            simp [List.dropWhile_cons, hr]
  | cons d dt ih =>
      have hd : p d = true := hds d (by simp)
      have ih2 := ih (fun c hc => hds c (by simp [hc]))
      constructor
      · simp only [List.cons_append, List.takeWhile_cons, hd, if_true]
        rw [ih2.1]
      · simp only [List.cons_append, List.dropWhile_cons, hd, if_true]
        exact ih2.2

theorem isEmpty_replicate_u (m : Nat) :
    (List.replicate m 'u').isEmpty = decide (m = 0) := by
  cases m <;> simp

theorem getTypeNamed_of_decomp (name : String) (m : Nat) (ds rest : List Char)
    (hname : name.toList = List.replicate m 'u' ++ 'i' :: 'n' :: 't' :: (ds ++ rest))
    (hne : ds ≠ []) (hdig : ∀ c ∈ ds, isPyDigit c = true)
    (hrest : ∀ c ∈ rest.take 1, isPyDigit c = false) :
    getTypeNamed name =
      if parseDigits ds % 8 = 0 then getTypeSized (parseDigits ds / 8) (decide (m = 0))
      else none := by
  have haux := takeWhile_replicate_cons (fun c => c = 'u') 'u' (by decide) 'i'
    (by decide) m ('n' :: 't' :: (ds ++ rest))
  have haux2 := takeWhile_all_append isPyDigit ds rest hdig hrest
  have hemp : ds.isEmpty = false := by
    cases ds with
    | nil => exact absurd rfl hne
    | cons d dt => rfl
  simp only [getTypeNamed]
  rw [hname, haux.1, haux.2]
  simp only [List.take_succ_cons, List.take_zero, List.drop_succ_cons, List.drop_zero]
  rw [if_pos trivial, haux2.1, hemp, isEmpty_replicate_u]
  simp only [Bool.false_eq_true, if_false]

/-- C6 counterexample: `"uuint8"` is not of the form `u?int<N>` (two
leading `u`s), yet the regex `(u*)int(\d+)` accepts it and resolution
succeeds with the unsigned 8-bit kind instead of failing. -/
theorem claim_C6_counterexample :
    getTypeNamed "uuint8" = some UInt8K ∧
    getTypeNamed "uint32xyz" = some UInt32K := by
  decide

/-- C6 amended: name resolution accepts exactly the strings that start
with any number of leading `u`s (so `u?` of the claim is really `u*`,
unsigned as soon as one `u` is present), then the literal `int`, then a
nonempty maximal decimal digit run whose value is a multiple of 8
resolving to one of the eight kinds; characters after the digit run are
ignored rather than rejected.  On such strings the kind returned has size
`N/8` and is signed exactly when no `u` is present. -/
theorem claim_C6_name_resolution (name : String) :
    ((getTypeNamed name).isSome ↔
      ∃ (m : Nat) (ds rest : List Char),
        name.toList = List.replicate m 'u' ++ 'i' :: 'n' :: 't' :: (ds ++ rest) ∧
        ds ≠ [] ∧ (∀ c ∈ ds, isPyDigit c = true) ∧
        (∀ c ∈ rest.take 1, isPyDigit c = false) ∧
        parseDigits ds % 8 = 0 ∧
        (parseDigits ds / 8 = 1 ∨ parseDigits ds / 8 = 2 ∨
          parseDigits ds / 8 = 4 ∨ parseDigits ds / 8 = 8)) ∧
    (∀ (m : Nat) (ds rest : List Char),
      name.toList = List.replicate m 'u' ++ 'i' :: 'n' :: 't' :: (ds ++ rest) →
      ds ≠ [] → (∀ c ∈ ds, isPyDigit c = true) →
      (∀ c ∈ rest.take 1, isPyDigit c = false) →
      getTypeNamed name =
        if parseDigits ds % 8 = 0 then
          if parseDigits ds / 8 = 1 ∨ parseDigits ds / 8 = 2 ∨
              parseDigits ds / 8 = 4 ∨ parseDigits ds / 8 = 8 then
            some ⟨parseDigits ds / 8, decide (m = 0)⟩
          else none
        else none) := by
  have hpart2 : ∀ (m : Nat) (ds rest : List Char),
      name.toList = List.replicate m 'u' ++ 'i' :: 'n' :: 't' :: (ds ++ rest) →
      ds ≠ [] → (∀ c ∈ ds, isPyDigit c = true) →
      (∀ c ∈ rest.take 1, isPyDigit c = false) →
      getTypeNamed name =
        if parseDigits ds % 8 = 0 then
          if parseDigits ds / 8 = 1 ∨ parseDigits ds / 8 = 2 ∨
              parseDigits ds / 8 = 4 ∨ parseDigits ds / 8 = 8 then
            some ⟨parseDigits ds / 8, decide (m = 0)⟩
          else none
        else none := by
    intro m ds rest hname hne hdig hrest
    rw [getTypeNamed_of_decomp name m ds rest hname hne hdig hrest, getTypeSized_eq]
  refine ⟨⟨?_, ?_⟩, hpart2⟩
  · intro h
    simp only [getTypeNamed] at h
    set U := name.toList.takeWhile (fun c => c = 'u') with hU
    set R := name.toList.dropWhile (fun c => c = 'u') with hR
    set ds0 := (R.drop 3).takeWhile isPyDigit with hds0
    set rest' := (R.drop 3).dropWhile isPyDigit with hrest'
    by_cases h1 : R.take 3 = ['i', 'n', 't']
    · rw [if_pos h1] at h
      by_cases h2 : ds0.isEmpty = true
      · rw [if_pos h2] at h
        simp at h
      · rw [if_neg h2] at h
        by_cases h3 : parseDigits ds0 % 8 = 0
        · rw [if_pos h3, getTypeSized_eq] at h
          by_cases h4 : parseDigits ds0 / 8 = 1 ∨ parseDigits ds0 / 8 = 2 ∨
              parseDigits ds0 / 8 = 4 ∨ parseDigits ds0 / 8 = 8
          · have e1 : U ++ R = name.toList := by
              rw [hU, hR]
              exact List.takeWhile_append_dropWhile _ _
            have hrep : U = List.replicate U.length 'u' := by
              rw [hU]
              refine List.eq_replicate_of_mem (fun b hb => ?_)
              have h5 := List.mem_takeWhile_imp hb
              exact of_decide_eq_true h5
            have e3 : R.drop 3 = ds0 ++ rest' := by
              rw [hds0, hrest']
              exact (List.takeWhile_append_dropWhile _ _).symm
            have e2 : R = 'i' :: 'n' :: 't' :: (ds0 ++ rest') := by
              conv_lhs => rw [← List.take_append_drop 3 R]
              rw [h1, e3]
              rfl
            refine ⟨U.length, ds0, rest', ?_, ?_, ?_, ?_, h3, h4⟩
            · rw [← e1, e2, ← hrep]
            · intro hnil
              rw [hnil] at h2
              exact h2 rfl
            · intro c hc
              rw [hds0] at hc
              exact List.mem_takeWhile_imp hc
            · intro c hc
              rw [hrest'] at hc
              exact take_one_dropWhile isPyDigit _ c hc
          · rw [if_neg h4] at h
            simp at h
        · rw [if_neg h3] at h
          simp at h
    · rw [if_neg h1] at h
      simp at h
  · rintro ⟨m, ds, rest, hname, hne, hdig, hrest, hmod, hsz⟩
    rw [hpart2 m ds rest hname hne hdig hrest, if_pos hmod, if_pos hsz]
    rfl

theorem claim_C6_witness : getTypeNamed "int16" = some ⟨2, true⟩ := by
  rw [(claim_C6_name_resolution "int16").2 0 ['1', '6'] []
    (by decide) (by decide) (by decide) (by decide)]
  decide

/-- C7: `partition(x, n, t)` fails exactly when `(n+1)` times `t`'s byte
width exceeds `x`'s byte length, for either byte order; in particular
`partition(x, 99, uint8)` fails for every `x` of width at most 64 bits. -/
theorem claim_C7_partn_range (bo : ByteOrder) (x : FwInt) (n : Nat) (t : IntKind) :
    (partn bo x n t = none ↔ x.kind.size < (n + 1) * t.size) ∧
    (x.kind.size ≤ 8 → partn bo x 99 UInt8K = none) := by
  have main : ∀ (bo' : ByteOrder) (n' : Nat) (t' : IntKind),
      partn bo' x n' t' = none ↔ x.kind.size < (n' + 1) * t'.size := by
    intro bo' n' t'
    have hexp : (n' + 1) * t'.size = n' * t'.size + t'.size := by ring
    have hz : t'.size = 0 → n' * t'.size = 0 := fun h => by rw [h, Nat.mul_zero]
    have hslice : (((x.toBytes bo').drop (n' * t'.size)).take t'.size).length =
        min t'.size (x.kind.size - n' * t'.size) := by
      simp [List.length_take, List.length_drop, toBytes_length]
    unfold partn fromBytes
    by_cases hc : (((x.toBytes bo').drop (n' * t'.size)).take t'.size).length = t'.size
    · rw [if_pos hc]
      rw [hslice, min_eq_left_iff] at hc
      simp only [reduceCtorEq, false_iff]
      omega
    · rw [if_neg hc]
      rw [hslice, min_eq_left_iff] at hc
      simp only [true_iff]
      omega
  exact ⟨main bo n t, fun h => (main bo 99 UInt8K).2 (by simp [UInt8K]; omega)⟩

theorem claim_C7_witness :
    partn ByteOrder.little ⟨UInt32K, 5⟩ 99 UInt8K = none :=
  (claim_C7_partn_range ByteOrder.little ⟨UInt32K, 5⟩ 99 UInt8K).2 (by decide)

/-- C8 counterexample: with byte order big-endian, `lobyte` of the 16-bit
value `0x0102` still returns the numerically lowest-order byte `0x02`,
not the highest-order byte `0x01` the claim promises. -/
theorem claim_C8_counterexample :
    lobyte ByteOrder.big ⟨UInt16K, 0x0102⟩ = some ⟨UInt8K, 2⟩ ∧
    lobyte ByteOrder.big ⟨UInt16K, 0x0102⟩ ≠ some ⟨UInt8K, 1⟩ := by
  decide

/-- C8 amended: `lobyte(x)` returns the numerically lowest-order byte of
`x` — `x mod 256` as an unsigned 8-bit value — under the little-endian
AND the big-endian setting alike: the big-endian branch of `low_ind`
selects the last buffer index, which in a big-endian buffer again holds
the lowest-order byte.  The byte order is read per call (it is an
argument here), but switching it never changes the result of `lobyte`. -/
theorem claim_C8_lobyte_lowest (bo : ByteOrder) (x : FwInt) (h : 1 ≤ x.kind.size) :
    lobyte bo x = some ⟨UInt8K, x.val % 256⟩ := by
  obtain ⟨s, hs⟩ : ∃ s, x.kind.size = s + 1 := ⟨x.kind.size - 1, by omega⟩
  cases bo with
  | little =>
      simp [lobyte, byten, low_ind, partn, FwInt.toBytes, hs, bytesLE, fromBytes,
        natFromBytesLE, UInt8K]
  | big =>
      have hrev : FwInt.toBytes x ByteOrder.big =
          (bytesLE s (x.val / 256)).reverse ++ [x.val % 256] := by
        simp [FwInt.toBytes, hs, bytesLE]
      have hdrop : (FwInt.toBytes x ByteOrder.big).drop s = [x.val % 256] := by
        rw [hrev]
        exact List.drop_left' (by simp [bytesLE_length])
      simp [lobyte, byten, low_ind, last_ind, partn, UInt8K, hs, hdrop, fromBytes,
        natFromBytesLE]

theorem claim_C8_witness :
    lobyte ByteOrder.big ⟨UInt16K, 0x0102⟩ = some ⟨UInt8K, 2⟩ := by
  rw [claim_C8_lobyte_lowest ByteOrder.big ⟨UInt16K, 0x0102⟩ (by decide)]
  decide

/-- C9: `clz` of the zero value of any kind returns `width - 1` (for
example 31 for a 32-bit zero), not the full declared width: the bit-length
Python computes for 0 is 1, so the leading zeros are under-counted by
one. -/
theorem claim_C9_clz_zero (k : IntKind) :
    clz ⟨k, 0⟩ = (k.size * 8 : Int) - 1 ∧ clz ⟨k, 0⟩ ≠ (k.size * 8 : Int) := by
  have ht : (FwInt.toInt ⟨k, 0⟩) = 0 := by
    unfold FwInt.toInt
    simp [Nat.le_zero, Nat.pow_eq_zero]
  have hlen : pyBinLen 0 = 1 := by decide
  unfold clz
  dsimp only
  rw [ht, hlen]
  omega

/-- C10: `mkcshr(value, count)` is total exactly on counts `>= 1`, where
it returns the flag 0 or 1; for `count <= 0` the shift amount `count - 1`
is negative and the call errors out instead of returning a flag. -/
theorem claim_C10_mkcshr_totality (v : FwInt) (c : Int) :
    (1 ≤ c → mkcshr v c = some 0 ∨ mkcshr v c = some 1) ∧
    (c ≤ 0 → mkcshr v c = none) := by
  constructor
  · intro h
    unfold mkcshr
    rw [if_neg (by omega)]
    rcases Nat.mod_two_eq_zero_or_one ((v.shr (c - 1).toNat).val) with h0 | h1
    · left
      rw [Nat.and_one_is_mod, h0]
    · right
      rw [Nat.and_one_is_mod, h1]
  · intro h
    unfold mkcshr
    rw [if_pos (by omega)]

theorem claim_C10_witness :
    (mkcshr ⟨UInt8K, 3⟩ 1 = some 0 ∨ mkcshr ⟨UInt8K, 3⟩ 1 = some 1) ∧
    mkcshr ⟨UInt8K, 3⟩ 0 = none :=
  ⟨(claim_C10_mkcshr_totality ⟨UInt8K, 3⟩ 1).1 (by decide),
   (claim_C10_mkcshr_totality ⟨UInt8K, 3⟩ 0).2 (by decide)⟩

end Gravitum
